import Mathlib

/-!
Verification of the Trivia API backend (`src/backend/flaskr/__init__.py`)
against its specification.

The embedding models the database as a list of `Question` rows and a list
of `Category` rows.  The HTTP handlers are translated from the source file;
the ORM/repository operations they call (`Question.query.all()`,
`order_by`, `filter`, `get`, `insert`, `delete`, `Question.format()`,
which live outside this repository's source tree) are modelled from the
spec's repository interface (spec section 6 and the data model of
section 3).

Randomness: `random.choice(pool)` is modelled by consuming one index from
a tape of drawn indices.  A tape entry `d` selects `pool[d]` (out-of-range
entries, which a real `random.choice` never produces, make the run
invalid and yield `none`).  `playLoop pool prev tape = none` for every
finite tape means the `while True:` loop in `play` never produces a
response, i.e. the request hangs.
-/

/-- A question row.  Modelled from the spec: spec section 3 data model
(`models.py` is not part of this repository's source tree). -/
structure Question where
  id : Nat
  question : String
  answer : String
  category : Nat
  difficulty : Nat
deriving DecidableEq

/-- A category row.  Modelled from the spec: spec section 3 data model. -/
structure Category where
  id : Nat
  type : String
deriving DecidableEq

/-- The serialized (JSON) form of a question.  Modelled from the spec:
`Question.format()` of `models.py` is not in the source tree; the spec's
data model lists exactly these fields. -/
structure FormattedQuestion where
  id : Nat
  question : String
  answer : String
  category : Nat
  difficulty : Nat
deriving DecidableEq

/-- Modelled from the spec: serialization of one question
(`question.format()`). -/
def Question.format (q : Question) : FormattedQuestion :=
  ⟨q.id, q.question, q.answer, q.category, q.difficulty⟩

/-- List lookup by position: the element the drawn index selects. -/
def nth : List α → Nat → Option α
  | [], _ => none
  | a :: _, 0 => some a
  | _ :: l, n + 1 => nth l n

/-- Modelled from the spec: the repository's stable id order
(`Question.query.order_by(Question.id)`), as an insertion sort on ids. -/
def insertById (q : Question) : List Question → List Question
  | [] => [q]
  | r :: rs => if q.id ≤ r.id then q :: r :: rs else r :: insertById q rs

/-- Modelled from the spec: `order_by(Question.id).all()` on the stored
question list. -/
def orderById : List Question → List Question
  | [] => []
  | q :: qs => insertById q (orderById qs)

/-- Modelled from the spec: `Question.query.get(question_id)` — lookup of
the stored row with the given identifier. -/
def queryGet (db : List Question) (i : Nat) : Option Question :=
  db.find? fun q => q.id == i

def QUESTIONS_PER_PAGE : Nat := 10

/-- Python list slicing `l[start:stop]` for nonnegative bounds. -/
def pySlice (l : List α) (start stop : Nat) : List α :=
  (l.drop start).take (stop - start)

/-- Translated from `paginate_questions` (source lines 34-47):
`start = (page - 1) * QUESTIONS_PER_PAGE`, `end = start + QUESTIONS_PER_PAGE`,
format every question, return `formatted_questions[start:end]`. -/
def paginate_questions (selection : List Question) (page : Nat) :
    List FormattedQuestion :=
  let start := (page - 1) * QUESTIONS_PER_PAGE
  pySlice (selection.map Question.format) start (start + QUESTIONS_PER_PAGE)

/-- Outcome of `GET /questions`. -/
inductive GetQuestionsResult where
  | ok (questions : List FormattedQuestion) (total : Nat)
  | notFound
deriving DecidableEq

/-- Translated from `get_questions` (source lines 62-84): order all
questions by id, paginate, `abort(404)` when the page is empty, else
respond with the page and `total_questions = len(questions)`. -/
def get_questions (db : List Question) (page : Nat) : GetQuestionsResult :=
  let questions := orderById db
  let paginated := paginate_questions questions page
  if paginated.length = 0 then .notFound
  else .ok paginated questions.length

/-- Outcome of `DELETE /questions/<id>`. -/
inductive DeleteResult where
  | ok
  | notFound
deriving DecidableEq

/-- Translated from `delete_question` (source lines 86-98):
`Question.query.get(question_id)`, then `question.delete()` when the row
exists (modelled from the spec as removing that stored row), else
`abort(404)`; on success return status 200. -/
def delete_question (db : List Question) (i : Nat) :
    DeleteResult × List Question :=
  match queryGet db i with
  | some _ => (.ok, db.eraseP fun q => q.id == i)
  | none => (.notFound, db)

/-- Whether the character list `needle` starts the character list given
second. -/
def startsWithChars : List Char → List Char → Bool
  | [], _ => true
  | _ :: _, [] => false
  | a :: as, b :: bs => a == b && startsWithChars as bs

/-- Whether `needle` occurs contiguously in the second list. -/
def hasSub (needle : List Char) : List Char → Bool
  | [] => startsWithChars needle []
  | c :: cs => startsWithChars needle (c :: cs) || hasSub needle cs

/-- Modelled from the spec: the repository's case-insensitive containment
filter `Question.question.ilike(f"%{search_term}%")`. -/
def ilike (term s : String) : Bool :=
  hasSub term.toLower.toList s.toLower.toList

/-- Decoded body of `POST /questions`.  `searchTerm = none` models a body
whose `"searchTerm"` key is absent or null (`request_body.get` returns
`None` in both cases). -/
structure PostBody where
  searchTerm : Option String
  question : String
  answer : String
  category : Nat
  difficulty : Nat

/-- Outcome of `POST /questions`. -/
inductive PostResult where
  | searchOk (questions : List FormattedQuestion) (total : Nat)
  | created
  | badRequest
deriving DecidableEq

/-- Modelled from the spec: `Question(**request_body)` followed by
`insert()` appends the new row to the store. -/
def insertQuestion (db : List Question) (b : PostBody) : List Question :=
  db ++ [⟨0, b.question, b.answer, b.category, b.difficulty⟩]

/-- Translated from `add_question_or_search` (source lines 100-139):
when `searchTerm` is not `None` (the empty string included) run the
search branch — filter by `ilike`, paginate, respond, no write; otherwise
`abort(400)` on an empty question or answer, else insert the question and
respond 201.  The pair's second component is the stored question list
after the request. -/
def add_question_or_search (db : List Question) (body : PostBody)
    (page : Nat) : PostResult × List Question :=
  match body.searchTerm with
  | some term =>
    let matching := (orderById db).filter fun q => ilike term q.question
    let paginated := paginate_questions matching page
    (.searchOk (if matching.length ≠ 0 then paginated else []) matching.length,
      db)
  | none =>
    if body.question = "" ∨ body.answer = "" then (.badRequest, db)
    else (.created, insertQuestion db body)

/-- Outcome of `GET /categories/<id>/questions`. -/
inductive CategoryQuestionsResult where
  | ok (questions : List FormattedQuestion) (total : Nat)
      (current_category : String)
  | notFound
  | serverError
deriving DecidableEq

/-- Modelled from the spec: `Category.query.get` — `lookupCategory` of the
repository interface. -/
def categoryGet (cats : List Category) (i : Nat) : Option Category :=
  cats.find? fun c => c.id == i

/-- Translated from `get_questions_by_category` (source lines 141-164):
questions of the category ordered by id, paginated; `abort(404)` when the
page is empty; otherwise respond with the page, the total, and
`Category.query.get(category_id).type` (an attribute access on `None`,
hence an unhandled exception and HTTP 500, when the category row is
missing). -/
def get_questions_by_category (db : List Question) (cats : List Category)
    (categoryId : Nat) (page : Nat) : CategoryQuestionsResult :=
  let questions := orderById (db.filter fun q => q.category == categoryId)
  let paginated := paginate_questions questions page
  if paginated.length = 0 then .notFound
  else
    match categoryGet cats categoryId with
    | some c => .ok paginated questions.length c.type
    | none => .serverError

/-- Translated from the `while True:` loops of `play` (source lines
177-190): draw `random.choice(pool)` (one tape index per iteration) and
`break` as soon as the drawn question's id is not in
`previous_questions`.  `none` means the tape ended (or held an index a
real `random.choice` cannot produce) with the loop still running: no
finite tape produced a response. -/
def playLoop (pool : List Question) (prev : List Nat) :
    List Nat → Option Question
  | [] => none
  | d :: ds =>
    match nth pool d with
    | none => none
    | some q => if q.id ∈ prev then playLoop pool prev ds else some q

/-- Translated from `play` (source lines 166-197): choose the pool from
the category selector (id 0 is the "all categories" sentinel), run the
selection loop, then `previous_questions.append(random_question.id)` and
respond with the question and the updated list. -/
def play (db : List Question) (categoryId : Nat) (prev : List Nat)
    (tape : List Nat) : Option (Question × List Nat) :=
  let pool := if categoryId = 0 then db
              else db.filter fun q => q.category == categoryId
  (playLoop pool prev tape).map fun q => (q, prev ++ [q.id])

/-- HTTP-level outcome of one `POST /quizzes` request. -/
inductive PlayOutcome where
  | response (q : Question) (previous : List Nat)
  | error (code : Nat)
  | pending
deriving DecidableEq

/-- Translated from `play` (source lines 166-197) together with the
app's error handling: `random.choice` on an empty pool raises
`IndexError`, an unhandled exception, which the framework surfaces as
HTTP 500 (source lines 215-217); otherwise the loop runs on the tape, and
a tape that never hits an unseen question leaves the request `pending`
(the loop is still spinning). -/
def playHandler (db : List Question) (categoryId : Nat) (prev : List Nat)
    (tape : List Nat) : PlayOutcome :=
  let pool := if categoryId = 0 then db
              else db.filter fun q => q.category == categoryId
  if pool.isEmpty then .error 500
  else
    match playLoop pool prev tape with
    | some q => .response q (prev ++ [q.id])
    | none => .pending

/-- The selection loop run on a fixed-length tape of in-range indices:
the probability space of `n` consecutive uniform draws of
`random.choice(pool)`. -/
def playTape (pool : List Question) (prev : List Nat) {n : Nat}
    (t : Fin n → Fin pool.length) : Option Question :=
  playLoop pool prev (List.ofFn fun i => (t i : Nat))

/-- Index transposition on drawn indices: the action of swapping two pool
positions on one tape entry. -/
def swapIdx (a b d : Nat) : Nat :=
  if d = a then b else if d = b then a else d

/-- A play session against a fixed pool: one tape per request, each
response's question id appended to the previous-questions list (as the
client of `/quizzes` does), stopping when a request never responds. -/
def sessionPrev (pool : List Question) : List (List Nat) → List Nat → List Nat
  | [], prev => prev
  | t :: ts, prev =>
    match playLoop pool prev t with
    | some q => sessionPrev pool ts (prev ++ [q.id])
    | none => prev

/-- Sample rows used to instantiate the theorems on concrete inputs. -/
def qA : Question := ⟨1, "What is A?", "A", 1, 1⟩

def qB : Question := ⟨2, "What is B?", "B", 1, 2⟩

def qC : Question := ⟨20, "What is the heaviest organ?", "The Liver", 1, 4⟩

def catScience : Category := ⟨1, "Science"⟩

/-! ### Helper lemmas about list indexing and the selection loop -/

theorem nth_mem {α : Type _} {l : List α} {i : Nat} {a : α}
    (h : nth l i = some a) : a ∈ l := by
  induction l generalizing i with
  | nil => simp [nth] at h
  | cons b l ih =>
    cases i with
    | zero =>
      simp [nth] at h
      simp [h]
    | succ j =>
      simp only [nth] at h
      exact List.mem_cons_of_mem _ (ih h)

theorem exists_nth_of_mem {α : Type _} {l : List α} {a : α} (h : a ∈ l) :
    ∃ i, i < l.length ∧ nth l i = some a := by
  induction l with
  | nil => simp at h
  | cons b l ih =>
    rcases List.mem_cons.mp h with hb | hl
    · exact ⟨0, by simp, by simp [nth, hb]⟩
    · obtain ⟨i, hi, hnth⟩ := ih hl
      exact ⟨i + 1, by simpa using Nat.succ_lt_succ hi, by simpa [nth] using hnth⟩

theorem nth_map {α β : Type _} (f : α → β) (l : List α) (i : Nat) :
    nth (l.map f) i = (nth l i).map f := by
  induction l generalizing i with
  | nil => simp [nth]
  | cons b l ih =>
    cases i with
    | zero => simp [nth]
    | succ j => simpa [nth] using ih j

theorem nth_inj {α : Type _} {l : List α} (hl : l.Nodup) {i j : Nat} {a : α}
    (hi : nth l i = some a) (hj : nth l j = some a) : i = j := by
  induction l generalizing i j with
  | nil => simp [nth] at hi
  | cons b l ih =>
    obtain ⟨hb, hl'⟩ := List.nodup_cons.mp hl
    cases i with
    | zero =>
      cases j with
      | zero => rfl
      | succ j' =>
        simp [nth] at hi
        simp only [nth] at hj
        exact absurd (nth_mem hj) (by simpa [hi] using hb)
    | succ i' =>
      cases j with
      | zero =>
        simp [nth] at hj
        simp only [nth] at hi
        exact absurd (nth_mem hi) (by simpa [hj] using hb)
      | succ j' =>
        simp only [nth] at hi hj
        exact congrArg Nat.succ (ih hl' hi hj)

theorem playLoop_sound {pool : List Question} {prev : List Nat}
    {ds : List Nat} {q : Question} (h : playLoop pool prev ds = some q) :
    q ∈ pool ∧ q.id ∉ prev := by
  induction ds with
  | nil => simp [playLoop] at h
  | cons d ds ih =>
    cases hg : nth pool d with
    | none => simp [playLoop, hg] at h
    | some r =>
      simp only [playLoop, hg] at h
      by_cases hr : r.id ∈ prev
      · rw [if_pos hr] at h
        exact ih h
      · rw [if_neg hr] at h
        injection h with h
        subst h
        exact ⟨nth_mem hg, hr⟩

theorem playLoop_none_of_served {pool : List Question} {prev : List Nat}
    (hall : ∀ q ∈ pool, q.id ∈ prev) :
    ∀ ds, playLoop pool prev ds = none := by
  intro ds
  induction ds with
  | nil => rfl
  | cons d ds ih =>
    cases hg : nth pool d with
    | none => simp [playLoop, hg]
    | some r => simp [playLoop, hg, hall r (nth_mem hg), ih]

theorem playLoop_cons_of_unseen {pool : List Question} {prev : List Nat}
    {d : Nat} {q : Question} (hg : nth pool d = some q) (hq : q.id ∉ prev)
    (ds : List Nat) : playLoop pool prev (d :: ds) = some q := by
  simp [playLoop, hg, hq]

theorem play_eq (db : List Question) (categoryId : Nat) (prev tape : List Nat) :
    play db categoryId prev tape =
      (playLoop (if categoryId = 0 then db
                 else db.filter fun q => q.category == categoryId) prev
          tape).map fun q => (q, prev ++ [q.id]) := rfl

/-! ### Claims about the quiz selection loop -/

/-- C1: the spec requires `selectNext` to return `Exhausted` immediately
when every pool identifier is already served (or the pool is empty); the
source's `while True:` loop instead never produces a response there — no
finite tape of draws makes `playLoop` return — so the request hangs, as
the source's own FIXME comment admits.  This theorem certifies the
divergence. -/
theorem play_exhausted_never_responds (pool : List Question)
    (prev : List Nat) (hall : ∀ q ∈ pool, q.id ∈ prev) :
    ∀ tape, playLoop pool prev tape = none :=
  playLoop_none_of_served hall

theorem play_exhausted_never_responds_witness :
    (∀ q ∈ [qA], q.id ∈ [1]) ∧ playLoop [qA] [1] [0, 0, 0] = none :=
  ⟨by decide, play_exhausted_never_responds [qA] [1] (by decide) [0, 0, 0]⟩

/-- C2: whenever the previously-served set is a strict subset of the
pool's identifiers, every response of the selection loop is a pool
question whose id is not previously served (the loop only breaks on an
unseen draw), and some draw sequence does produce such a response. -/
theorem play_selects_unseen (pool : List Question) (prev : List Nat)
    (_hsub : ∀ i ∈ prev, i ∈ pool.map Question.id)
    (hstrict : ¬ ∀ i ∈ pool.map Question.id, i ∈ prev) :
    (∀ tape q, playLoop pool prev tape = some q → q ∈ pool ∧ q.id ∉ prev) ∧
    (∃ tape q, playLoop pool prev tape = some q ∧ q ∈ pool ∧ q.id ∉ prev) := by
  refine ⟨fun tape q h => playLoop_sound h, ?_⟩
  obtain ⟨i, hi, hni⟩ : ∃ i ∈ pool.map Question.id, i ∉ prev := by
    simpa using hstrict
  obtain ⟨q, hq, rfl⟩ := List.mem_map.mp hi
  obtain ⟨d, _, hnth⟩ := exists_nth_of_mem hq
  exact ⟨[d], q, playLoop_cons_of_unseen hnth hni [], hq, hni⟩

theorem play_selects_unseen_witness :
    (∀ tape q, playLoop [qA, qB] [1] tape = some q →
      q ∈ [qA, qB] ∧ q.id ∉ [1]) ∧
    (∃ tape q, playLoop [qA, qB] [1] tape = some q ∧
      q ∈ [qA, qB] ∧ q.id ∉ [1]) :=
  play_selects_unseen [qA, qB] [1] (by decide) (by decide)

/-- C3: in a session that starts empty and appends every returned id, the
served list stays duplicate-free and can hold at most `pool.length` ids —
so at most `|pool|` calls succeed and no identifier repeats — but once
every pool id is served the loop never responds at all: the code reaches
no `Exhausted` result (it has none), contradicting the claim's
"reaches the Exhausted result". -/
theorem play_session_no_repeats_never_exhausted (pool : List Question)
    (tapes : List (List Nat)) :
    (sessionPrev pool tapes []).Nodup ∧
    (sessionPrev pool tapes []).length ≤ pool.length ∧
    (∀ prev, (∀ q ∈ pool, q.id ∈ prev) →
      ∀ tape, playLoop pool prev tape = none) := by
  have inv : ∀ (ts : List (List Nat)) (prev : List Nat), prev.Nodup →
      (∀ i ∈ prev, i ∈ pool.map Question.id) →
      (sessionPrev pool ts prev).Nodup ∧
      ∀ i ∈ sessionPrev pool ts prev, i ∈ pool.map Question.id := by
    intro ts
    induction ts with
    | nil => exact fun prev h1 h2 => ⟨h1, h2⟩
    | cons t ts ih =>
      intro prev h1 h2
      cases hp : playLoop pool prev t with
      | none =>
        have hstep : sessionPrev pool (t :: ts) prev = prev := by
          simp [sessionPrev, hp]
        rw [hstep]
        exact ⟨h1, h2⟩
      | some q =>
        obtain ⟨hqp, hqu⟩ := playLoop_sound hp
        have h1' : (prev ++ [q.id]).Nodup := by
          simp [List.nodup_append, h1, hqu]
        have h2' : ∀ i ∈ prev ++ [q.id], i ∈ pool.map Question.id := by
          intro i hi
          rcases List.mem_append.mp hi with hi | hi
          · exact h2 i hi
          · simp only [List.mem_singleton] at hi
            exact hi ▸ List.mem_map_of_mem Question.id hqp
        have hstep : sessionPrev pool (t :: ts) prev =
            sessionPrev pool ts (prev ++ [q.id]) := by
          simp [sessionPrev, hp]
        rw [hstep]
        exact ih (prev ++ [q.id]) h1' h2'
  obtain ⟨h1, h2⟩ := inv tapes [] (by simp) (by simp)
  refine ⟨h1, ?_, fun prev hall => playLoop_none_of_served hall⟩
  calc (sessionPrev pool tapes []).length
      = (sessionPrev pool tapes []).toFinset.card :=
        (List.toFinset_card_of_nodup h1).symm
    _ ≤ (pool.map Question.id).toFinset.card := by
        apply Finset.card_le_card
        intro x hx
        rw [List.mem_toFinset] at hx ⊢
        exact h2 x hx
    _ ≤ (pool.map Question.id).length := List.toFinset_card_le _
    _ = pool.length := List.length_map _ _

theorem play_session_no_repeats_never_exhausted_witness :
    (sessionPrev [qA] [[0]] []).Nodup ∧
    playLoop [qA] [1] [0, 1] = none :=
  ⟨(play_session_no_repeats_never_exhausted [qA] [[0]]).1,
    (play_session_no_repeats_never_exhausted [qA] [[0]]).2.2 [1] (by decide)
      [0, 1]⟩

/-- C4: with pool `{q1, q2}` and `q1` already served, the loop rejects
every draw of `q1` and breaks only on `q2`, so every response is `q2`
whatever the random draws were, and some draw sequence does respond. -/
theorem play_two_pool_forced (q1 q2 : Question) (hne : q1.id ≠ q2.id) :
    (∀ tape q, playLoop [q1, q2] [q1.id] tape = some q → q = q2) ∧
    (∃ tape, playLoop [q1, q2] [q1.id] tape = some q2) := by
  constructor
  · intro tape q h
    obtain ⟨hmem, hid⟩ := playLoop_sound h
    rcases List.mem_cons.mp hmem with h1 | h2
    · exact absurd (by simp [h1]) hid
    · simpa using h2
  · refine ⟨[1], ?_⟩
    have hg : nth [q1, q2] 1 = some q2 := rfl
    exact playLoop_cons_of_unseen hg (by simp [hne.symm]) []

theorem play_two_pool_forced_witness :
    (∀ tape q, playLoop [qA, qB] [qA.id] tape = some q → q = qB) ∧
    (∃ tape, playLoop [qA, qB] [qA.id] tape = some qB) :=
  play_two_pool_forced qA qB (by decide)

/-- C5: every successful `/quizzes` response carries exactly the input
previous-questions list with the selected question's id appended at its
end (line 191 of the source), so the input list is an initial segment of
the output list and the served set only grows. -/
theorem play_appends_selected_id (db : List Question) (categoryId : Nat)
    (prev tape : List Nat) (q : Question) (updated : List Nat)
    (h : play db categoryId prev tape = some (q, updated)) :
    updated = prev ++ [q.id] ∧ ∃ tail, updated = prev ++ tail := by
  rw [play_eq, Option.map_eq_some'] at h
  obtain ⟨r, _, heq⟩ := h
  simp only [Prod.mk.injEq] at heq
  obtain ⟨rfl, rfl⟩ := heq
  exact ⟨rfl, [r.id], rfl⟩

theorem play_appends_selected_id_witness :
    ([1] : List Nat) = [] ++ [qA.id] ∧
    ∃ tail, ([1] : List Nat) = [] ++ tail :=
  play_appends_selected_id [qA] 0 [] [0] qA [1] (by decide)

theorem playHandler_eq (db : List Question) (categoryId : Nat)
    (prev tape : List Nat) :
    playHandler db categoryId prev tape =
      if (if categoryId = 0 then db
          else db.filter fun q => q.category == categoryId).isEmpty then
        .error 500
      else
        match playLoop (if categoryId = 0 then db
                        else db.filter fun q => q.category == categoryId)
            prev tape with
        | some q => .response q (prev ++ [q.id])
        | none => .pending := rfl

/-- C6: a category selector that resolves to no known category yields 404
on `GET /categories/<id>/questions`, but on `POST /quizzes` the pool is
empty (referential integrity: every stored question's category is a known
one), so `random.choice([])` raises `IndexError` and the framework
answers HTTP 500 — a server error, contradicting the claim's
"never a 5xx-class failure". -/
theorem unknown_category_play_is_server_error (db : List Question)
    (cats : List Category) (categoryId : Nat) (prev tape : List Nat)
    (page : Nat) (h0 : categoryId ≠ 0)
    (hunknown : ∀ c ∈ cats, c.id ≠ categoryId)
    (hrefint : ∀ q ∈ db, ∃ c ∈ cats, q.category = c.id) :
    get_questions_by_category db cats categoryId page =
      CategoryQuestionsResult.notFound ∧
    playHandler db categoryId prev tape = PlayOutcome.error 500 := by
  have hfilter : db.filter (fun q => q.category == categoryId) = [] := by
    rw [List.filter_eq_nil_iff]
    intro q hq
    obtain ⟨c, hc, hqc⟩ := hrefint q hq
    simp [hqc]
    exact hunknown c hc
  constructor
  · simp [get_questions_by_category, hfilter, orderById, paginate_questions,
      pySlice]
  · rw [playHandler_eq]
    simp [h0, hfilter]

theorem unknown_category_play_is_server_error_witness :
    get_questions_by_category [qA] [catScience] 7 1 =
      CategoryQuestionsResult.notFound ∧
    playHandler [qA] 7 [] [0] = PlayOutcome.error 500 :=
  unknown_category_play_is_server_error [qA] [catScience] 7 [] [0] 1
    (by decide) (by decide) (by decide)

/-! ### Pagination, search, and deletion claims -/

theorem insertById_length (q : Question) (l : List Question) :
    (insertById q l).length = l.length + 1 := by
  induction l with
  | nil => rfl
  | cons r rs ih =>
    by_cases h : q.id ≤ r.id
    · simp [insertById, h]
    · simp [insertById, h, ih]

theorem orderById_length (l : List Question) :
    (orderById l).length = l.length := by
  induction l with
  | nil => rfl
  | cons q qs ih => simp [orderById, insertById_length, ih]

theorem get_questions_eq (db : List Question) (page : Nat) :
    get_questions db page =
      if (paginate_questions (orderById db) page).length = 0 then .notFound
      else .ok (paginate_questions (orderById db) page)
        (orderById db).length := rfl

/-- C8: the paginated listing is exactly the ten-question slice
`formatted[(p-1)*10 : p*10]` of the id-ordered questions, its length never
exceeds ten, `GET /questions` answers 404 precisely when that slice is
empty, and an ok response reports the length of the whole stored list as
`total_questions`, not the page length. -/
theorem get_questions_pagination (db : List Question) (p : Nat)
    (_hp : 1 ≤ p) :
    paginate_questions (orderById db) p =
      (((orderById db).map Question.format).drop ((p - 1) * 10)).take 10 ∧
    (paginate_questions (orderById db) p).length ≤ 10 ∧
    (get_questions db p = GetQuestionsResult.notFound ↔
      (((orderById db).map Question.format).drop ((p - 1) * 10)).take 10
        = []) ∧
    (∀ qs total, get_questions db p = GetQuestionsResult.ok qs total →
      total = db.length) := by
  have hslice : paginate_questions (orderById db) p =
      (((orderById db).map Question.format).drop ((p - 1) * 10)).take 10 := by
    simp [paginate_questions, pySlice, QUESTIONS_PER_PAGE]
  refine ⟨hslice, ?_, ?_, ?_⟩
  · rw [hslice]
    simp [Nat.min_le_left]
  · rw [get_questions_eq]
    by_cases hz : (paginate_questions (orderById db) p).length = 0
    · simp only [hz, if_pos]
      simp only [true_iff, if_true]
      rw [← hslice]
      exact List.length_eq_zero.mp hz
    · simp only [hz, if_neg, if_false]
      constructor
      · intro h
        cases h
      · intro h
        rw [← hslice] at h
        exact absurd (by simp [h]) hz
  · intro qs total h
    rw [get_questions_eq] at h
    by_cases hz : (paginate_questions (orderById db) p).length = 0
    · simp [hz] at h
    · simp only [hz, if_false] at h
      cases h
      exact orderById_length db

theorem get_questions_pagination_witness :
    (paginate_questions (orderById [qA]) 1).length ≤ 10 ∧
    (1 : Nat) = ([qA] : List Question).length :=
  ⟨(get_questions_pagination [qA] 1 (by decide)).2.1,
    (get_questions_pagination [qA] 1 (by decide)).2.2.2 [qA.format] 1
      (by decide)⟩

/-- C9: a request body whose `searchTerm` is present and non-null (the
empty string included) takes the search branch of the walrus test on
line 114 — it responds with search results and leaves the stored question
list unchanged — so the create branch can only run when `searchTerm` is
absent or null. -/
theorem search_branch_reads_only (db : List Question) (body : PostBody)
    (page : Nat) (term : String) (h : body.searchTerm = some term) :
    ∃ qs total, add_question_or_search db body page =
      (PostResult.searchOk qs total, db) := by
  refine ⟨if ((orderById db).filter fun q => ilike term q.question).length ≠ 0
      then paginate_questions
        ((orderById db).filter fun q => ilike term q.question) page
      else [],
    ((orderById db).filter fun q => ilike term q.question).length, ?_⟩
  simp [add_question_or_search, h]

theorem search_branch_reads_only_witness :
    ∃ qs total,
      add_question_or_search [qA] ⟨some "", "x", "y", 1, 1⟩ 1 =
        (PostResult.searchOk qs total, [qA]) :=
  search_branch_reads_only [qA] ⟨some "", "x", "y", 1, 1⟩ 1 "" rfl

theorem mem_eraseP_of_nodup_ids {db : List Question} {i : Nat}
    (hnd : (db.map Question.id).Nodup) (q : Question) :
    q ∈ db.eraseP (fun r => r.id == i) ↔ q ∈ db ∧ q.id ≠ i := by
  induction db with
  | nil => simp
  | cons r rs ih =>
    rw [List.map_cons, List.nodup_cons] at hnd
    obtain ⟨hr, hnd'⟩ := hnd
    by_cases hri : r.id = i
    · have he : (r :: rs).eraseP (fun x => x.id == i) = rs := by
        simp [List.eraseP_cons, hri]
      rw [he]
      constructor
      · intro hq
        refine ⟨List.mem_cons_of_mem _ hq, ?_⟩
        intro hqi
        apply hr
        have hmap : q.id ∈ rs.map Question.id :=
          List.mem_map_of_mem Question.id hq
        rwa [hqi, ← hri] at hmap
      · rintro ⟨hq, hqi⟩
        rcases List.mem_cons.mp hq with rfl | hq'
        · exact absurd hri hqi
        · exact hq'
    · have he : (r :: rs).eraseP (fun x => x.id == i) =
          r :: rs.eraseP (fun x => x.id == i) := by
        simp [List.eraseP_cons, beq_iff_eq, hri]
      rw [he]
      rw [List.mem_cons, List.mem_cons, ih hnd']
      constructor
      · rintro (rfl | ⟨hq, hqi⟩)
        · exact ⟨Or.inl rfl, hri⟩
        · exact ⟨Or.inr hq, hqi⟩
      · rintro ⟨rfl | hq, hqi⟩
        · exact Or.inl rfl
        · exact Or.inr ⟨hq, hqi⟩

/-- C10: `DELETE /questions/<id>` answers 200 and removes exactly the
question with the given identifier when one exists, and answers 404 with
the stored question list untouched when none does. -/
theorem delete_question_spec (db : List Question) (i : Nat)
    (hnd : (db.map Question.id).Nodup) :
    ((∃ q ∈ db, q.id = i) →
      (delete_question db i).1 = DeleteResult.ok ∧
      ∀ q, q ∈ (delete_question db i).2 ↔ q ∈ db ∧ q.id ≠ i) ∧
    ((∀ q ∈ db, q.id ≠ i) →
      delete_question db i = (DeleteResult.notFound, db)) := by
  constructor
  · rintro ⟨r, hr, hri⟩
    have hfind : (queryGet db i).isSome := by
      rw [queryGet, List.find?_isSome]
      exact ⟨r, hr, by simp [hri]⟩
    obtain ⟨r2, hr2⟩ := Option.isSome_iff_exists.mp hfind
    constructor
    · simp [delete_question, hr2]
    · intro q
      simp only [delete_question, hr2]
      exact mem_eraseP_of_nodup_ids hnd q
  · intro hall
    have hfind : queryGet db i = none := by
      rw [queryGet, List.find?_eq_none]
      intro q hq
      simp [hall q hq]
    simp [delete_question, hfind]

theorem delete_question_spec_witness :
    (delete_question [qA, qC] 1).1 = DeleteResult.ok ∧
    (qC ∈ (delete_question [qA, qC] 1).2 ↔ qC ∈ [qA, qC] ∧ qC.id ≠ 1) ∧
    delete_question [qB] 1 = (DeleteResult.notFound, [qB]) :=
  ⟨((delete_question_spec [qA, qC] 1 (by decide)).1
      ⟨qA, by decide, by decide⟩).1,
   ((delete_question_spec [qA, qC] 1 (by decide)).1
      ⟨qA, by decide, by decide⟩).2 qC,
   (delete_question_spec [qB] 1 (by decide)).2 (by decide)⟩

/-! ### Uniformity of the reject-and-resample loop -/

theorem exists_nth_of_lt {α : Type _} :
    ∀ (l : List α) (i : Nat), i < l.length → ∃ a, nth l i = some a
  | [], i, h => absurd h (by simp)
  | a :: _, 0, _ => ⟨a, rfl⟩
  | _ :: l, i + 1, h =>
    exists_nth_of_lt l i (Nat.lt_of_succ_lt_succ (by simpa using h))

theorem playTape_eq (pool : List Question) (prev : List Nat) {n : Nat}
    (t : Fin n → Fin pool.length) :
    playTape pool prev t =
      playLoop pool prev (List.ofFn fun i => (t i : Nat)) := rfl

theorem nth_ne_of_nodup_ids {pool : List Question}
    (hnod : (pool.map Question.id).Nodup) {d a : Nat} {r q : Question}
    (hd : nth pool d = some r) (ha : nth pool a = some q) (hda : d ≠ a) :
    r ≠ q := by
  intro hrq
  apply hda
  apply nth_inj hnod (a := q.id)
  · rw [nth_map, hd, hrq]
    rfl
  · rw [nth_map, ha]
    rfl

theorem playLoop_swap {pool : List Question} {prev : List Nat}
    (hnod : (pool.map Question.id).Nodup) {a b : Nat} {q q' : Question}
    (hga : nth pool a = some q) (hgb : nth pool b = some q')
    (hqa : q.id ∉ prev) (hqb : q'.id ∉ prev) (hne : q ≠ q') :
    ∀ ds : List Nat, (∀ d ∈ ds, d < pool.length) →
      playLoop pool prev (ds.map (swapIdx a b)) =
        (playLoop pool prev ds).map
          fun r => if r = q then q' else if r = q' then q else r := by
  have hab : a ≠ b := by
    intro h
    rw [h, hgb] at hga
    exact hne (Option.some.inj hga).symm
  intro ds
  induction ds with
  | nil => intro _; rfl
  | cons d ds ih =>
    intro hbound
    have hdlt : d < pool.length := hbound d (List.mem_cons_self d ds)
    have hbound' : ∀ x ∈ ds, x < pool.length :=
      fun x hx => hbound x (List.mem_cons_of_mem d hx)
    by_cases hda : d = a
    · subst hda
      have hsw : swapIdx d b d = b := by simp [swapIdx]
      rw [List.map_cons, hsw, playLoop_cons_of_unseen hgb hqb,
        playLoop_cons_of_unseen hga hqa]
      simp
    · by_cases hdb : d = b
      · subst hdb
        have hsw : swapIdx a d d = a := by simp [swapIdx, Ne.symm hab]
        rw [List.map_cons, hsw, playLoop_cons_of_unseen hga hqa,
          playLoop_cons_of_unseen hgb hqb]
        simp [Ne.symm hne]
      · have hsw : swapIdx a b d = d := by simp [swapIdx, hda, hdb]
        obtain ⟨r, hr⟩ := exists_nth_of_lt pool d hdlt
        have hrq : r ≠ q := nth_ne_of_nodup_ids hnod hr hga hda
        have hrq' : r ≠ q' := nth_ne_of_nodup_ids hnod hr hgb hdb
        rw [List.map_cons, hsw]
        by_cases hmem : r.id ∈ prev
        · simp only [playLoop, hr, if_pos hmem]
          exact ih hbound'
        · rw [playLoop_cons_of_unseen hr hmem, playLoop_cons_of_unseen hr hmem]
          simp [hrq, hrq']

theorem val_swap {L : Nat} (a b x : Fin L) :
    ((Equiv.swap a b x : Fin L) : Nat) = swapIdx (a : Nat) (b : Nat) x := by
  by_cases hxa : x = a
  · subst hxa
    simp [Equiv.swap_apply_left, swapIdx]
  · by_cases hxb : x = b
    · subst hxb
      rw [Equiv.swap_apply_right]
      by_cases hba : (x : Nat) = (a : Nat)
      · simp [swapIdx, hba, Fin.ext_iff.mpr hba]
      · simp [swapIdx, hba]
    · have hva : (x : Nat) ≠ (a : Nat) := fun h => hxa (Fin.ext h)
      have hvb : (x : Nat) ≠ (b : Nat) := fun h => hxb (Fin.ext h)
      rw [Equiv.swap_apply_of_ne_of_ne hxa hxb]
      simp [swapIdx, hva, hvb]

theorem tape_swap_eq {pool : List Question} {n : Nat}
    (fa fb : Fin pool.length) (t : Fin n → Fin pool.length) :
    (List.ofFn fun i => ((Equiv.swap fa fb (t i) : Fin pool.length) : Nat)) =
      (List.ofFn fun i => ((t i : Fin pool.length) : Nat)).map
        (swapIdx (fa : Nat) (fb : Nat)) := by
  rw [List.map_ofFn]
  apply congrArg
  funext i
  exact (val_swap fa fb (t i)).symm |>.symm

theorem ofFn_val_bounded {pool : List Question} {n : Nat}
    (t : Fin n → Fin pool.length) :
    ∀ d ∈ List.ofFn fun i => ((t i : Fin pool.length) : Nat),
      d < pool.length := by
  intro d hd
  obtain ⟨j, hj⟩ := (List.mem_ofFn _ _).mp hd
  rw [← hj]
  exact (t j).isLt

/-- C7: over tapes of any fixed number `n` of uniform draws, the loop's
responses are sound (only unseen pool questions), every unseen question is
reachable, and any two unseen questions are returned by exactly the same
number of tapes — so, the draws being uniform and independent, each unseen
question is selected with equal probability and nothing outside the unseen
subset ever is. -/
theorem play_uniform_over_unseen (pool : List Question) (prev : List Nat)
    (hnod : (pool.map Question.id).Nodup) (q q' : Question)
    (hq : q ∈ pool) (hq' : q' ∈ pool)
    (hqu : q.id ∉ prev) (hq2u : q'.id ∉ prev) (n : Nat) :
    (∀ (t : Fin n → Fin pool.length) (r : Question),
      playTape pool prev t = some r → r ∈ pool ∧ r.id ∉ prev) ∧
    (0 < n → ∃ t : Fin n → Fin pool.length, playTape pool prev t = some q) ∧
    (Finset.univ.filter fun t : Fin n → Fin pool.length =>
        playTape pool prev t = some q).card =
      (Finset.univ.filter fun t : Fin n → Fin pool.length =>
        playTape pool prev t = some q').card := by
  obtain ⟨a, ha, hga⟩ := exists_nth_of_mem hq
  obtain ⟨b, hb, hgb⟩ := exists_nth_of_mem hq'
  refine ⟨?_, ?_, ?_⟩
  · intro t r h
    rw [playTape_eq] at h
    exact playLoop_sound h
  · intro hn
    obtain ⟨m, rfl⟩ : ∃ m, n = m + 1 :=
      ⟨n - 1, (Nat.succ_pred_eq_of_pos hn).symm⟩
    refine ⟨fun _ => ⟨a, ha⟩, ?_⟩
    rw [playTape_eq, List.ofFn_succ]
    exact playLoop_cons_of_unseen hga hqu _
  · rcases eq_or_ne q q' with rfl | hne
    · rfl
    · have key : ∀ t : Fin n → Fin pool.length,
          playTape pool prev (fun j => Equiv.swap ⟨a, ha⟩ ⟨b, hb⟩ (t j)) =
            (playTape pool prev t).map
              fun r => if r = q then q' else if r = q' then q else r := by
        intro t
        rw [playTape_eq, playTape_eq, tape_swap_eq]
        exact playLoop_swap hnod hga hgb hqu hq2u hne _ (ofFn_val_bounded t)
      apply Finset.card_bij
        (fun t _ => fun j => Equiv.swap ⟨a, ha⟩ ⟨b, hb⟩ (t j))
      · intro t ht
        rw [Finset.mem_filter] at ht ⊢
        refine ⟨Finset.mem_univ _, ?_⟩
        rw [key t, ht.2]
        simp
      · intro t1 h1 t2 h2 heq
        funext j
        exact Equiv.injective _ (congrFun heq j)
      · intro s hs
        rw [Finset.mem_filter] at hs
        refine ⟨fun j => Equiv.swap ⟨a, ha⟩ ⟨b, hb⟩ (s j), ?_, ?_⟩
        · rw [Finset.mem_filter]
          refine ⟨Finset.mem_univ _, ?_⟩
          rw [key, hs.2]
          simp [Ne.symm hne]
        · funext j
          exact Equiv.swap_apply_self _ _ _

theorem play_uniform_over_unseen_witness :
    (∀ (t : Fin 1 → Fin ([qA, qB] : List Question).length) (r : Question),
      playTape [qA, qB] [] t = some r → r ∈ [qA, qB] ∧ r.id ∉ []) ∧
    (0 < 1 → ∃ t : Fin 1 → Fin ([qA, qB] : List Question).length,
      playTape [qA, qB] [] t = some qA) ∧
    (Finset.univ.filter fun t : Fin 1 → Fin ([qA, qB] : List Question).length =>
        playTape [qA, qB] [] t = some qA).card =
      (Finset.univ.filter
          fun t : Fin 1 → Fin ([qA, qB] : List Question).length =>
        playTape [qA, qB] [] t = some qB).card :=
  play_uniform_over_unseen [qA, qB] [] (by decide) qA qB (by decide)
    (by decide) (by decide) (by decide) 1
